import Mathlib

/-!
Verification development for the fairtrade-infra-benchmarks audit-reconstruction
pipeline (scripts/reconstruct-audit-from-logs.ts, both the receipt-based variant
and the chunked getLogs variant, plus scripts/benchmark-op-rpcs.ts).

The TypeScript sources are shallowly embedded: JS strings become Lean `String`
(ASCII domain), JS `bigint`/hex quantities become `Nat`, JS exceptions become
`Except`/`Option`, and the network is an explicit oracle function.  Every
definition mirrors one source function and keeps its name where possible.
-/

/-! ## JS string primitives (ASCII domain) -/

/-- Model of `Char` lowering as performed by `String.prototype.toLowerCase`
on the ASCII alphabet (the only characters appearing in hex strings, topic
hashes and RPC error messages). -/
def jsToLower (c : Char) : Char :=
  if 'A' ≤ c ∧ c ≤ 'Z' then Char.ofNat (c.toNat + 32) else c

/-- Model of `String.prototype.toLowerCase` (ASCII domain). -/
def toLowerStr (s : String) : String := String.mk (s.data.map jsToLower)

/-- Helper for `strIncludes`: does `sub` occur at the head of `s`? -/
def hasPrefixChars : List Char → List Char → Bool
  | _, [] => true
  | [], _ :: _ => false
  | c :: cs, d :: ds => c = d && hasPrefixChars cs ds

/-- Helper for `strIncludes`: does `sub` occur anywhere inside `s`? -/
def hasInfixChars : List Char → List Char → Bool
  | s, sub =>
    if hasPrefixChars s sub then true
    else
      match s with
      | [] => false
      | _ :: cs => hasInfixChars cs sub

/-- Model of `String.prototype.includes`. -/
def strIncludes (s sub : String) : Bool := hasInfixChars s.data sub.data

/-- Model of `s.startsWith("0x")`. -/
def startsWith0x (s : String) : Bool :=
  match s.data with
  | '0' :: 'x' :: _ => true
  | _ => false

/-- Characters of `s` after an optional leading `0x`
(the `startsWith("0x") ? slice(2) : s` idiom). -/
def stripHex (s : String) : List Char :=
  match s.data with
  | '0' :: 'x' :: rest => rest
  | l => l

/-! ## Hex parsing (the semantics of `BigInt` on the RPC's `0x` quantities) -/

/-- Value of one hexadecimal digit, `none` for a non-hex character. -/
def hexDigit? (c : Char) : Option ℕ :=
  if '0' ≤ c ∧ c ≤ '9' then some (c.toNat - '0'.toNat)
  else if 'a' ≤ c ∧ c ≤ 'f' then some (c.toNat - 'a'.toNat + 10)
  else if 'A' ≤ c ∧ c ≤ 'F' then some (c.toNat - 'A'.toNat + 10)
  else none

/-- Accumulating hex evaluator; `none` as soon as a non-hex character shows up
(`BigInt` throws on such input). -/
def hexValGo (acc : ℕ) : List Char → Option ℕ
  | [] => some acc
  | c :: cs =>
    match hexDigit? c with
    | some d => hexValGo (16 * acc + d) cs
    | none => none

/-- Hex value of a digit list; the empty list fails (`BigInt("0x")` throws). -/
def hexDigitsVal : List Char → Option ℕ
  | [] => none
  | l => hexValGo 0 l

/-- Model of the source's `hexToBigInt` (`BigInt(h)`) on the `0x`-prefixed
hexadecimal quantities produced by the RPC layer; inputs outside that domain
are modelled as failure. -/
def hexToBigInt? (s : String) : Option ℕ :=
  match s.data with
  | '0' :: 'x' :: rest => hexDigitsVal rest
  | _ => none

/-! ## Log decoding helpers (`decodeBytes32`, `decodeUint`, `splitWords`,
`decodeAddressFromWord` from the source) -/

/-- Model of `decodeBytes32`: lowercase a well-shaped 32-byte hex word,
return anything else unchanged. -/
def decodeBytes32 (w : String) : String :=
  if startsWith0x w = true ∧ w.length = 66 then toLowerStr w else w

/-- Model of `decodeUint` (`BigInt(h)` where `h` is `w` with a `0x` prefix
ensured); `none` models the exception on non-hex input. -/
def decodeUint? (w : String) : Option ℕ := hexDigitsVal (stripHex w)

/-- Fuel-driven worker for `splitWords`: full 64-character chunks of a
character list, dropping a short trailing chunk. -/
def chunksAux : ℕ → List Char → List (List Char)
  | 0, _ => []
  | fuel + 1, l =>
    if 64 ≤ l.length then l.take 64 :: chunksAux fuel (l.drop 64) else []

/-- Model of `splitWords`: split the data blob (after the optional `0x`) into
full 32-byte words, each re-prefixed with `0x`; a trailing short chunk is
dropped. -/
def splitWords (dataHex : String) : List String :=
  (chunksAux (stripHex dataHex).length (stripHex dataHex)).map
    (fun cs => String.mk ('0' :: 'x' :: cs))

/-- Model of `decodeAddressFromWord`: last 20 bytes (40 hex chars) of a word. -/
def decodeAddressFromWord (w : String) : String :=
  String.mk ('0' :: 'x' :: (stripHex w).drop 24)

/-- The literal `"0x" + "0".repeat(64)` used as the fallback actor word. -/
def zeroWord64 : String := String.mk ('0' :: 'x' :: List.replicate 64 '0')

/-- The all-zero address, `decodeAddressFromWord zeroWord64`. -/
def zeroAddress40 : String := String.mk ('0' :: 'x' :: List.replicate 40 '0')

/-! ## Data model -/

/-- Variant-specific payload of the `AuditEvent` tagged union. -/
inductive EventDetails
  | cidAnchored (stepId orgIdHash cidHash : String) (stepType : ℕ) (actor : String)
  | documentAnchored (stepId orgIdHash cidHash : String) (docType : ℕ) (actor : String)
  | processCreated (orgIdHash : String)
  | processStatusChanged (orgIdHash : String) (previousStatus newStatus : ℕ) (actor : String)
deriving DecidableEq

/-- Model of the source's `AuditEvent` union: the fields shared by all four
variants plus the variant payload. -/
structure AuditEvent where
  blockNumber : ℕ
  logIndex : ℕ
  txHash : String
  productId : String
  timestamp : Option ℕ
  details : EventDetails
deriving DecidableEq

/-- Model of one raw log record (`RpcLog` in the source). -/
structure RpcLog where
  address : String
  topics : List String
  data : String
  blockNumber : String
  transactionHash : String
  logIndex : String
deriving DecidableEq

/-- The four signature hashes and target entity id threaded through
`decodeLogsToEvents`. -/
structure DecodeParams where
  productId : String
  tCidAnchored : String
  tDocAnchored : String
  tProcessCreated : String
  tProcessStatusChanged : String
deriving DecidableEq

/-- Lift an `Option` (a possibly-throwing `BigInt` conversion) into the
decoder's exception monad. -/
def liftO : Option α → Except Unit α
  | some a => Except.ok a
  | none => Except.error ()

/-- Loop body of `decodeLogsToEvents` for a single record: zero or one event,
or a thrown exception (`.error ()`) when a needed hex conversion fails. -/
def decodeLog (p : DecodeParams) (l : RpcLog) : Except Unit (Option AuditEvent) :=
  let t0 := toLowerStr (l.topics.getD 0 "")
  let topicProduct := toLowerStr (l.topics.getD 1 "")
  if topicProduct ≠ toLowerStr p.productId then Except.ok none
  else if t0 = toLowerStr p.tCidAnchored then do
    let stepId := decodeBytes32 (l.topics.getD 2 "")
    let orgIdHash := decodeBytes32 (l.topics.getD 3 "")
    let words := splitWords l.data
    let cidHash := decodeBytes32 (words.getD 0 "0x")
    let stepType ← liftO (decodeUint? (words.getD 1 "0x0"))
    let actor := decodeAddressFromWord (words.getD 2 zeroWord64)
    let bn ← liftO (hexToBigInt? l.blockNumber)
    let li ← liftO (hexToBigInt? l.logIndex)
    Except.ok (some
      { blockNumber := bn, logIndex := li, txHash := l.transactionHash,
        productId := p.productId, timestamp := none,
        details := .cidAnchored stepId orgIdHash cidHash stepType actor })
  else if t0 = toLowerStr p.tDocAnchored then do
    let stepId := decodeBytes32 (l.topics.getD 2 "")
    let orgIdHash := decodeBytes32 (l.topics.getD 3 "")
    let words := splitWords l.data
    let cidHash := decodeBytes32 (words.getD 0 "0x")
    let docType ← liftO (decodeUint? (words.getD 1 "0x0"))
    let actor := decodeAddressFromWord (words.getD 2 zeroWord64)
    let bn ← liftO (hexToBigInt? l.blockNumber)
    let li ← liftO (hexToBigInt? l.logIndex)
    Except.ok (some
      { blockNumber := bn, logIndex := li, txHash := l.transactionHash,
        productId := p.productId, timestamp := none,
        details := .documentAnchored stepId orgIdHash cidHash docType actor })
  else if t0 = toLowerStr p.tProcessCreated then do
    let orgIdHash := decodeBytes32 (l.topics.getD 2 "")
    let bn ← liftO (hexToBigInt? l.blockNumber)
    let li ← liftO (hexToBigInt? l.logIndex)
    Except.ok (some
      { blockNumber := bn, logIndex := li, txHash := l.transactionHash,
        productId := p.productId, timestamp := none,
        details := .processCreated orgIdHash })
  else if t0 = toLowerStr p.tProcessStatusChanged then do
    let orgIdHash := decodeBytes32 (l.topics.getD 2 "")
    let words := splitWords l.data
    let previousStatus ← liftO (decodeUint? (words.getD 0 "0x0"))
    let newStatus ← liftO (decodeUint? (words.getD 1 "0x0"))
    let actor := decodeAddressFromWord (words.getD 2 zeroWord64)
    let bn ← liftO (hexToBigInt? l.blockNumber)
    let li ← liftO (hexToBigInt? l.logIndex)
    Except.ok (some
      { blockNumber := bn, logIndex := li, txHash := l.transactionHash,
        productId := p.productId, timestamp := none,
        details := .processStatusChanged orgIdHash previousStatus newStatus actor })
  else Except.ok none

/-- Model of `decodeLogsToEvents`: the per-record loop, accumulating events in
record order; a thrown conversion aborts the whole call. -/
def decodeLogsToEvents (p : DecodeParams) : List RpcLog → Except Unit (List AuditEvent)
  | [] => Except.ok []
  | l :: ls => do
    let r ← decodeLog p l
    let rest ← decodeLogsToEvents p ls
    Except.ok (r.toList ++ rest)

/-- The record's first topic (lowercased) matches one of the four known
signature hashes (lowercased), exactly as `decodeLogsToEvents` compares them. -/
def matchesKnownSig (p : DecodeParams) (l : RpcLog) : Prop :=
  toLowerStr (l.topics.getD 0 "") = toLowerStr p.tCidAnchored ∨
  toLowerStr (l.topics.getD 0 "") = toLowerStr p.tDocAnchored ∨
  toLowerStr (l.topics.getD 0 "") = toLowerStr p.tProcessCreated ∨
  toLowerStr (l.topics.getD 0 "") = toLowerStr p.tProcessStatusChanged

instance (p : DecodeParams) (l : RpcLog) : Decidable (matchesKnownSig p l) := by
  unfold matchesKnownSig
  exact inferInstance

/-- Every character of the data blob after the optional `0x` is a hex digit.
This is the data-model invariant for `RawLogRecord` payloads produced by the
ledger query layer. -/
def hexBodyOk (s : String) : Bool := (stripHex s).all (fun c => (hexDigit? c).isSome)

/-- The data-model well-formedness of one raw log record: block number and log
index are `0x` hex quantities and the data blob is hex. -/
def WellFormedLog (l : RpcLog) : Prop :=
  (hexToBigInt? l.blockNumber).isSome = true ∧
  (hexToBigInt? l.logIndex).isSome = true ∧
  hexBodyOk l.data = true

instance (l : RpcLog) : Decidable (WellFormedLog l) := by
  unfold WellFormedLog
  exact inferInstance

/-! ## Timeline Merger (sort step) -/

/-- Model of the sort comparator used by `sortEvents` and by the getLogs
variant's inline `events.sort`: lexicographic on `(blockNumber, logIndex)`. -/
def compareEvents (a b : AuditEvent) : Int :=
  if a.blockNumber ≠ b.blockNumber then
    (if a.blockNumber < b.blockNumber then -1 else 1)
  else if a.logIndex ≠ b.logIndex then
    (if a.logIndex < b.logIndex then -1 else 1)
  else 0

/-- The total preorder induced by the comparator (`compareEvents a b <= 0`),
the order `Array.prototype.sort` sorts by. -/
def evLe (a b : AuditEvent) : Prop := compareEvents a b ≤ 0

instance : DecidableRel evLe :=
  fun a b => inferInstanceAs (Decidable (compareEvents a b ≤ 0))

/-- Strict lexicographic order on the `(blockNumber, logIndex)` sort key. -/
def evKeyLt (a b : AuditEvent) : Prop :=
  a.blockNumber < b.blockNumber ∨
    (a.blockNumber = b.blockNumber ∧ a.logIndex < b.logIndex)

/-- Model of `sortEvents`: the events sorted by the comparator. -/
def sortEvents (events : List AuditEvent) : List AuditEvent :=
  events.insertionSort evLe

theorem evLe_iff (a b : AuditEvent) :
    evLe a b ↔ evKeyLt a b ∨
      (a.blockNumber = b.blockNumber ∧ a.logIndex = b.logIndex) := by
  unfold evLe compareEvents evKeyLt
  split_ifs with h1 h2 h3 h4 <;> simp <;> omega

instance : IsTotal AuditEvent evLe := by
  constructor
  intro a b
  rw [evLe_iff, evLe_iff]
  unfold evKeyLt
  omega

instance : IsTrans AuditEvent evLe := by
  constructor
  intro a b c hab hbc
  rw [evLe_iff] at hab hbc ⊢
  unfold evKeyLt at hab hbc ⊢
  omega

/-! ## Completeness Checker -/

/-- The fixed `requiredStepsArr = [1, 2, 3, 4, 5, 6]` from `main`. -/
def requiredStepsArr : List ℕ := [1, 2, 3, 4, 5, 6]

/-- Model of the `seenSteps` set: the `stepType` values of `CidAnchored`
events, collected in first-occurrence order (JS `Set` insertion order). -/
def seenSteps (events : List AuditEvent) : List ℕ :=
  events.foldl
    (fun s e =>
      match e.details with
      | .cidAnchored _ _ _ st _ => if st ∈ s then s else s ++ [st]
      | _ => s)
    []

/-- Model of `missing = requiredStepsArr.filter((s) => !seenSteps.has(s))`. -/
def missingSteps (events : List AuditEvent) : List ℕ :=
  requiredStepsArr.filter (fun s => decide (s ∉ seenSteps events))

/-- Model of `completeness = missing.length === 0 ? 1 : 0`. -/
def completeness01 (events : List AuditEvent) : ℕ :=
  if missingSteps events = [] then 1 else 0

/-! ## Latency harness percentile -/

/-- Model of the harness `percentile`: sort ascending (the `(a, b) => a - b`
comparator), take index `floor(p/100 * (n-1))` clamped to `[0, n-1]`;
`none` models the `NaN` returned for an empty list.  JS numbers are modelled
as rationals. -/
def percentile (values : List ℚ) (p : ℚ) : Option ℚ :=
  match values with
  | [] => none
  | _ :: _ =>
    let s := values.insertionSort (· ≤ ·)
    let idx : ℤ := min ((s.length : ℤ) - 1) (max 0 ⌊p / 100 * ((s.length : ℚ) - 1)⌋)
    some (s.getD idx.toNat 0)

/-! ## Chunked Range Scanner (`ethGetLogsChunkedWithProgress`) -/

/-- Model of `looksLikeRangeLimitError`: pattern match the lowercased message
against the known range-limit / throttling phrases. -/
def looksLikeRangeLimitError (msg : String) : Bool :=
  let m := toLowerStr msg
  strIncludes m "block range" ||
  strIncludes m "eth_getlogs requests with up to" ||
  strIncludes m "too many" ||
  strIncludes m "exceed" ||
  strIncludes m "limit" ||
  strIncludes m "max" ||
  strIncludes m "request size" ||
  strIncludes m "429"

/-- Static configuration plus environment of one chunked scan.  `rpcResponse`
is the network oracle: given the running request counter, the endpoint URL and
the inclusive block range it returns that attempt's `eth_getLogs` outcome.
The inter-chunk sleep of the source has no effect on any result and is not
modelled. -/
structure ScanConfig where
  rpcCandidates : List String
  fromBlock : ℕ
  toBlock : ℕ
  maxRequests : ℕ
  earlyStopCheck : Option (List RpcLog → Bool)
  rpcResponse : ℕ → String → ℕ → ℕ → Except String (List RpcLog)

/-- Inner endpoint-failover loop of the scanner: try each candidate in order,
incrementing the request counter per attempt, keeping the last error.  Returns
the new counter, the trace of issued `(fromBlock, toBlock)` range requests and
the outcome. -/
def tryCandidates (oracle : ℕ → String → ℕ → ℕ → Except String (List RpcLog))
    (s e rc : ℕ) : List String → ℕ × List (ℕ × ℕ) × Except String (List RpcLog)
  | [] => (rc, [], Except.error "null")
  | url :: rest =>
    match oracle rc url s e with
    | Except.ok logs => (rc + 1, [(s, e)], Except.ok logs)
    | Except.error msg =>
      match rest with
      | [] => (rc + 1, [(s, e)], Except.error msg)
      | _ :: _ =>
        let r := tryCandidates oracle s e (rc + 1) rest
        (r.1, (s, e) :: r.2.1, r.2.2)

/-- The `earlyStopCheck && earlyStopCheck(all)` idiom. -/
def earlyStopHit (cfg : ScanConfig) (logs : List RpcLog) : Bool :=
  match cfg.earlyStopCheck with
  | some f => f logs
  | none => false

/-- The scanner's `while (start <= toBlock)` loop, fuel-indexed so that it is
structurally recursive; `none` means the fuel ran out (never happens for the
fuel supplied by `ethGetLogsChunkedWithProgress`, see the termination theorem).
Returns the outcome together with the trace of issued range requests. -/
def scanLoopF (cfg : ScanConfig) :
    ℕ → ℕ → ℕ → ℕ → List RpcLog →
      Option (Except String (List RpcLog) × List (ℕ × ℕ))
  | 0, _, _, _, _ => none
  | fuel + 1, start, chunkSize, reqCount, acc =>
    if cfg.toBlock < start then some (Except.ok acc, [])
    else if cfg.maxRequests ≤ reqCount then some (Except.ok acc, [])
    else
      let endB := min cfg.toBlock (start + chunkSize - 1)
      match tryCandidates cfg.rpcResponse start endB reqCount cfg.rpcCandidates with
      | (rc', tr, Except.ok logs) =>
        let acc' := acc ++ logs
        if earlyStopHit cfg acc' then some (Except.ok acc', tr)
        else
          (scanLoopF cfg fuel (endB + 1) chunkSize rc' acc').map
            (fun q => (q.1, tr ++ q.2))
      | (rc', tr, Except.error msg) =>
        if 1 < chunkSize ∧ looksLikeRangeLimitError msg = true then
          (scanLoopF cfg fuel start (max 1 (chunkSize / 2)) rc' acc).map
            (fun q => (q.1, tr ++ q.2))
        else some (Except.error ("scan-fatal: " ++ msg), tr)

/-- Model of `ethGetLogsChunkedWithProgress`: normalize the chunk size with
`Math.max(1, ...)`, run the loop from `fromBlock` with request counter 0.  The
supplied fuel strictly dominates the loop measure, so the `getD` default is
never reached. -/
def ethGetLogsChunkedWithProgress (cfg : ScanConfig) (chunkSizeInput : ℕ) :
    Except String (List RpcLog) × List (ℕ × ℕ) :=
  if cfg.rpcCandidates.isEmpty then
    (Except.error "No RPC candidates available for logs.", [])
  else
    (scanLoopF cfg (cfg.toBlock + 1 - cfg.fromBlock + max 1 chunkSizeInput + 1)
        cfg.fromBlock (max 1 chunkSizeInput) 0 []).getD
      (Except.error "fuel", [])

/-! ## Retry with exponential backoff (`withRpcRetry` from
scripts/benchmark-op-rpcs.ts, the tx-sending RPS benchmark) -/

/-- Shape of a JS error as inspected by the benchmark's error classifiers. -/
structure JsError where
  code : Option Int
  msg : Option String
deriving DecidableEq

/-- Model of `isRateLimitError`. -/
def isRateLimitError (e : JsError) : Bool :=
  e.code = some (-32016) ||
  (match e.msg with
   | some m =>
     strIncludes m "exceeded its requests per second capacity" ||
     strIncludes (toLowerStr m) "too many requests"
   | none => false)

/-- Model of `isBackendDownError`. -/
def isBackendDownError (e : JsError) : Bool :=
  e.code = some (-32011) ||
  (match e.msg with
   | some m => strIncludes (toLowerStr m) "no backend is currently healthy"
   | none => false)

/-- The benchmark's `MAX_RETRIES = 15`. -/
def MAX_RETRIES : ℕ := 15

/-- The `while (true)` loop of `withRpcRetry`; `calls k` is the outcome of the
`k`-th invocation of `fn`, and `remaining = MAX_RETRIES - attempt` (the guard
`attempt < MAX_RETRIES` becomes `0 < remaining`).  Returns the final outcome
and the list of backoff delays slept, `min(15000, 1000 * 2 ^ attempt)` each. -/
def retryGo (calls : ℕ → Except JsError T) : ℕ → ℕ → Except JsError T × List ℕ
  | attempt, remaining =>
    match calls attempt with
    | Except.ok v => (Except.ok v, [])
    | Except.error e =>
      if (isRateLimitError e || isBackendDownError e) = true then
        match remaining with
        | 0 => (Except.error e, [])
        | r + 1 =>
          let d := min 15000 (1000 * 2 ^ attempt)
          let rest := retryGo calls (attempt + 1) r
          (rest.1, d :: rest.2)
      else (Except.error e, [])

/-- Model of `withRpcRetry`. -/
def withRpcRetry (calls : ℕ → Except JsError T) : Except JsError T × List ℕ :=
  retryGo calls 0 MAX_RETRIES

/-! ## Receipt-Based Reconstructor -/

/-- Model of a transaction receipt (`TxReceipt` in the source). -/
structure TxReceiptM where
  transactionHash : String
  blockNumber : String
  logs : List RpcLog
deriving DecidableEq

/-- Model of `main`'s receipt loop: for each tracked transaction hash, skip it
when its lowercased form was already seen, otherwise fetch the receipt with
the original-case hash (`none` = pending, recorded and skipped) and decode its
logs.  `fetch` is the `eth_getTransactionReceipt` oracle. -/
def mainReceiptLoop (fetch : String → Option TxReceiptM) (p : DecodeParams) :
    List String → List String → Except Unit (List AuditEvent)
  | _, [] => Except.ok []
  | seen, t :: ts =>
    if toLowerStr t ∈ seen then mainReceiptLoop fetch p seen ts
    else
      match fetch t with
      | none => mainReceiptLoop fetch p (toLowerStr t :: seen) ts
      | some rc => do
        let decoded ← decodeLogsToEvents p rc.logs
        let rest ← mainReceiptLoop fetch p (toLowerStr t :: seen) ts
        Except.ok (decoded ++ rest)

/-- First-occurrence case-insensitive de-duplication of a transaction list
relative to an already-seen set, the effect of `main`'s `seenTx` filter. -/
def dedupCaseInsensitive (seen : List String) : List String → List String
  | [] => []
  | t :: ts =>
    if toLowerStr t ∈ seen then dedupCaseInsensitive seen ts
    else t :: dedupCaseInsensitive (toLowerStr t :: seen) ts

/-- Receipts phase of `runAuditQueryOnce` in cold mode (no receipt cache):
one fetch per list entry, in order, with no de-duplication. -/
def simReceiptsPhase (fetch : String → Option TxReceiptM) (txs : List String) :
    List (Option TxReceiptM) :=
  txs.map (fun t => fetch t)

/-- Decode phase of `runAuditQueryOnce`: skip missing receipts, decode every
present receipt's logs in order. -/
def simDecodePhase (p : DecodeParams) :
    List (Option TxReceiptM) → Except Unit (List AuditEvent)
  | [] => Except.ok []
  | none :: rest => simDecodePhase p rest
  | some rc :: rest => do
    let d ← decodeLogsToEvents p rc.logs
    let r ← simDecodePhase p rest
    Except.ok (d ++ r)

/-- Cold-mode receipts-plus-decode pipeline of `runAuditQueryOnce` (the path
timed by the latency harness). -/
def simColdEvents (fetch : String → Option TxReceiptM) (p : DecodeParams)
    (txs : List String) : Except Unit (List AuditEvent) :=
  simDecodePhase p (simReceiptsPhase fetch txs)

/-! ## Bounded fan-out helper (`mapLimit`) -/

/-- Phase of one `mapLimit` worker: about to claim an index, holding a claimed
index while its `fn` call is in flight, or finished. -/
inductive WPhase
  | ready
  | holds (i : ℕ)
  | done
deriving DecidableEq

/-- Interleaving state of `mapLimit`: the shared `next` counter, the shared
`out` array (`none` = not yet written) and each worker's phase. -/
structure MLState (β : Type) where
  next : ℕ
  out : List (Option β)
  workers : List WPhase
deriving DecidableEq

/-- Initial `mapLimit` state: `out = new Array(n)`, `Math.max(1, limit)`
workers, all ready. -/
def mlInit (β : Type) (n limit : ℕ) : MLState β :=
  ⟨0, List.replicate n none, List.replicate (max 1 limit) WPhase.ready⟩

/-- One atomic action of worker `w`: a ready worker executes
`const i = next++; if (i >= items.length) return;` (claiming `i` or
finishing); a holding worker's `fn` call resolves and it executes
`out[i] = ...` and loops; a finished worker does nothing. -/
def mlStep (f : ℕ → α → β) (items : List α) (s : MLState β) (w : ℕ) :
    MLState β :=
  match s.workers[w]? with
  | some WPhase.ready =>
    if items.length ≤ s.next then
      ⟨s.next + 1, s.out, s.workers.set w WPhase.done⟩
    else
      ⟨s.next + 1, s.out, s.workers.set w (WPhase.holds s.next)⟩
  | some (WPhase.holds i) =>
    match items[i]? with
    | some a => ⟨s.next, s.out.set i (some (f i a)), s.workers.set w WPhase.ready⟩
    | none => s
  | _ => s

/-- Run `mapLimit` under an arbitrary interleaving: `trace` lists which worker
performs each successive atomic action. -/
def mlRun (f : ℕ → α → β) (items : List α) (s0 : MLState β)
    (trace : List ℕ) : MLState β :=
  trace.foldl (mlStep f items) s0

/-- All workers have returned, i.e. `Promise.all(workers)` has resolved. -/
def allDone (s : MLState β) : Bool :=
  s.workers.all (fun w => decide (w = WPhase.done))

/-! ## Theorems -/

/-- C1. For every merged timeline produced by the sort step, adjacent events
are strictly ordered by `(blockNumber, logIndex)` lexicographically, provided
no two input events share both keys. -/
theorem sortEvents_adjacent_ordered (l : List AuditEvent)
    (hkeys : l.Pairwise
      (fun a b => ¬(a.blockNumber = b.blockNumber ∧ a.logIndex = b.logIndex)))
    (i : ℕ) (hi : i + 1 < (sortEvents l).length) :
    ((sortEvents l).get ⟨i, Nat.lt_of_succ_lt hi⟩).blockNumber <
        ((sortEvents l).get ⟨i + 1, hi⟩).blockNumber ∨
      (((sortEvents l).get ⟨i, Nat.lt_of_succ_lt hi⟩).blockNumber =
          ((sortEvents l).get ⟨i + 1, hi⟩).blockNumber ∧
        ((sortEvents l).get ⟨i, Nat.lt_of_succ_lt hi⟩).logIndex <
          ((sortEvents l).get ⟨i + 1, hi⟩).logIndex) := by
  have hs : List.Sorted evLe (sortEvents l) := List.sorted_insertionSort evLe l
  have hp : List.Perm (sortEvents l) l := List.perm_insertionSort evLe l
  have hsymm : Symmetric
      (fun a b : AuditEvent =>
        ¬(a.blockNumber = b.blockNumber ∧ a.logIndex = b.logIndex)) := by
    intro a b h hc
    exact h ⟨hc.1.symm, hc.2.symm⟩
  have hk : (sortEvents l).Pairwise
      (fun a b => ¬(a.blockNumber = b.blockNumber ∧ a.logIndex = b.logIndex)) :=
    (hp.pairwise_iff fun hab => hsymm hab).mpr hkeys
  have h1 := List.pairwise_iff_get.1 hs ⟨i, Nat.lt_of_succ_lt hi⟩ ⟨i + 1, hi⟩
    (Fin.mk_lt_mk.mpr (Nat.lt_succ_self i))
  have h2 := List.pairwise_iff_get.1 hk ⟨i, Nat.lt_of_succ_lt hi⟩ ⟨i + 1, hi⟩
    (Fin.mk_lt_mk.mpr (Nat.lt_succ_self i))
  rw [evLe_iff] at h1
  unfold evKeyLt at h1
  omega

/-- Concrete event with block 2, logIndex 0 for the C1 witness. -/
def c1EventA : AuditEvent := ⟨2, 0, "0xa1", "0x11", none, .processCreated "0x"⟩

/-- Concrete event with block 1, logIndex 5 for the C1 witness. -/
def c1EventB : AuditEvent := ⟨1, 5, "0xb1", "0x11", none, .processCreated "0x"⟩

/-- C1 witness: the theorem applied to a concrete two-event timeline. -/
theorem sortEvents_adjacent_ordered_witness :
    ((sortEvents [c1EventA, c1EventB]).get
        ⟨0, Nat.lt_of_succ_lt (by decide)⟩).blockNumber <
        ((sortEvents [c1EventA, c1EventB]).get ⟨0 + 1, by decide⟩).blockNumber ∨
      (((sortEvents [c1EventA, c1EventB]).get
            ⟨0, Nat.lt_of_succ_lt (by decide)⟩).blockNumber =
          ((sortEvents [c1EventA, c1EventB]).get
            ⟨0 + 1, by decide⟩).blockNumber ∧
        ((sortEvents [c1EventA, c1EventB]).get
            ⟨0, Nat.lt_of_succ_lt (by decide)⟩).logIndex <
          ((sortEvents [c1EventA, c1EventB]).get
            ⟨0 + 1, by decide⟩).logIndex) :=
  sortEvents_adjacent_ordered [c1EventA, c1EventB] (by decide) 0 (by decide)

/-- Concrete `CidAnchored` event with the given step type, for C5. -/
def cidEvent (st : ℕ) : AuditEvent :=
  ⟨1, st, "0xt", "0x11", none, .cidAnchored "0xs" "0xo" "0xc" st "0xa"⟩

/-- Concrete timeline whose observed `CidAnchored` step set is `{1,2,3,4,5}`. -/
def cidEventsSteps15 : List AuditEvent :=
  [cidEvent 1, cidEvent 2, cidEvent 3, cidEvent 4, cidEvent 5]

/-- C5. The completeness checker is a pure function of the timeline:
`isComplete` (the `completeness01 = 1` flag) holds iff the observed
`CidAnchored` step set contains every required step, and on the timeline whose
observed set is exactly `{1,2,3,4,5}` it is incomplete with `missingSteps = [6]`. -/
theorem completeness_superset_iff :
    (∀ events : List AuditEvent,
        completeness01 events = 1 ↔ ∀ s ∈ requiredStepsArr, s ∈ seenSteps events)
    ∧ completeness01 cidEventsSteps15 = 0
    ∧ missingSteps cidEventsSteps15 = [6] := by
  refine ⟨fun events => ?_, by decide, by decide⟩
  have hiff : missingSteps events = [] ↔
      ∀ s ∈ requiredStepsArr, s ∈ seenSteps events := by
    unfold missingSteps
    rw [List.filter_eq_nil_iff]
    simp
  unfold completeness01
  split_ifs with h
  · exact iff_of_true rfl (hiff.mp h)
  · exact iff_of_false (by decide) (fun hall => h (hiff.mpr hall))

/-- C4 counterexample: on `[10,20,30,40,50]` the harness computes p95 = 40
(index `floor(0.95 * 4) = 3` of the sorted list), not 50 as claimed. -/
theorem percentile_p95_cex :
    percentile [10, 20, 30, 40, 50] 95 = some 40 ∧
      percentile [10, 20, 30, 40, 50] 95 ≠ some 50 := by
  have hso : ([10, 20, 30, 40, 50] : List ℚ).insertionSort (· ≤ ·)
      = [10, 20, 30, 40, 50] := by decide
  have hfl : (⌊(95 : ℚ) / 100 * ((5 : ℚ) - 1)⌋ : ℤ) = 3 := by
    rw [Int.floor_eq_iff]; norm_num
  have h95 : percentile [10, 20, 30, 40, 50] 95 = some 40 := by
    simp only [percentile, hso]
    norm_num [hfl]
    decide
  exact ⟨h95, by rw [h95]; simp⟩

/-- C4 (amended). The harness percentile sorts ascending and returns the
element at index `floor(p/100 * (n-1))` clamped to `[0, n-1]`; on
`[10,20,30,40,50]` this gives p50 = 30 and p95 = 40 (not 50). -/
theorem percentile_nearest_rank :
    percentile [10, 20, 30, 40, 50] 50 = some 30 ∧
    percentile [10, 20, 30, 40, 50] 95 = some 40 ∧
    ∀ (values : List ℚ) (p : ℚ), values ≠ [] →
      List.Sorted (· ≤ ·) (values.insertionSort (· ≤ ·)) ∧
      List.Perm (values.insertionSort (· ≤ ·)) values ∧
      percentile values p = some ((values.insertionSort (· ≤ ·)).getD
        (min ((values.length : ℤ) - 1)
          (max 0 ⌊p / 100 * ((values.length : ℚ) - 1)⌋)).toNat 0) := by
  have hso : ([10, 20, 30, 40, 50] : List ℚ).insertionSort (· ≤ ·)
      = [10, 20, 30, 40, 50] := by decide
  refine ⟨?_, ?_, ?_⟩
  · have hfl : (⌊(50 : ℚ) / 100 * ((5 : ℚ) - 1)⌋ : ℤ) = 2 := by
      rw [Int.floor_eq_iff]; norm_num
    simp only [percentile, hso]
    norm_num [hfl]
    decide
  · have hfl : (⌊(95 : ℚ) / 100 * ((5 : ℚ) - 1)⌋ : ℤ) = 3 := by
      rw [Int.floor_eq_iff]; norm_num
    simp only [percentile, hso]
    norm_num [hfl]
    decide
  · intro values p hne
    match values with
    | v :: vs =>
      refine ⟨List.sorted_insertionSort _ _, List.perm_insertionSort _ _, ?_⟩
      have hlen : ((v :: vs).insertionSort (· ≤ ·)).length = (v :: vs).length :=
        (List.perm_insertionSort _ _).length_eq
      simp only [percentile, hlen]

/-- C4 witness: the amended theorem applied to a concrete nonempty list. -/
theorem percentile_nearest_rank_witness :
    List.Sorted (· ≤ ·) (([20, 10] : List ℚ).insertionSort (· ≤ ·)) ∧
    List.Perm (([20, 10] : List ℚ).insertionSort (· ≤ ·)) [20, 10] ∧
    percentile [20, 10] 50 = some ((([20, 10] : List ℚ).insertionSort (· ≤ ·)).getD
      (min ((([20, 10] : List ℚ).length : ℤ) - 1)
        (max 0 ⌊(50 : ℚ) / 100 * ((([20, 10] : List ℚ).length : ℚ) - 1)⌋)).toNat 0) :=
  percentile_nearest_rank.2.2 [20, 10] 50 (by decide)

theorem hexValGo_isSome (cs : List Char) (acc : ℕ)
    (h : ∀ c ∈ cs, (hexDigit? c).isSome = true) :
    (hexValGo acc cs).isSome = true := by
  induction cs generalizing acc with
  | nil => rfl
  | cons c cs ih =>
    have hc := h c (List.mem_cons_self c cs)
    obtain ⟨d, hd⟩ := Option.isSome_iff_exists.mp hc
    simp only [hexValGo, hd]
    exact ih _ (fun x hx => h x (List.mem_cons_of_mem c hx))

theorem hexDigitsVal_isSome (cs : List Char) (hne : cs ≠ [])
    (h : ∀ c ∈ cs, (hexDigit? c).isSome = true) :
    (hexDigitsVal cs).isSome = true := by
  match cs with
  | [] => exact absurd rfl hne
  | c :: cs' => exact hexValGo_isSome (c :: cs') 0 h

theorem chunksAux_mem {fuel : ℕ} {l cs : List Char}
    (h : cs ∈ chunksAux fuel l) : cs.length = 64 ∧ ∀ c ∈ cs, c ∈ l := by
  induction fuel generalizing l with
  | zero => simp [chunksAux] at h
  | succ fuel ih =>
    simp only [chunksAux] at h
    split at h
    · rcases List.mem_cons.mp h with h | h
      · subst h
        refine ⟨by simpa using (by omega : min 64 l.length = 64), ?_⟩
        exact fun c hc => List.take_subset 64 l hc
      · obtain ⟨hlen, hmem⟩ := ih h
        exact ⟨hlen, fun c hc => List.drop_subset 64 l (hmem c hc)⟩
    · simp at h

theorem splitWords_getD_decodeUint {d : String} (hd : hexBodyOk d = true)
    (i : ℕ) : (decodeUint? ((splitWords d).getD i "0x0")).isSome = true := by
  by_cases hi : i < (splitWords d).length
  · rw [List.getD_eq_getElem (splitWords d) "0x0" hi]
    have hmem : (splitWords d)[i] ∈ splitWords d := List.getElem_mem hi
    obtain ⟨cs, hcs, heq⟩ := List.mem_map.mp
      (show (splitWords d)[i] ∈
          (chunksAux (stripHex d).length (stripHex d)).map
            (fun cs => String.mk ('0' :: 'x' :: cs)) from hmem)
    obtain ⟨hlen, hsub⟩ := chunksAux_mem hcs
    rw [← heq]
    show (hexDigitsVal (stripHex (String.mk ('0' :: 'x' :: cs)))).isSome = true
    have hstrip : stripHex (String.mk ('0' :: 'x' :: cs)) = cs := rfl
    rw [hstrip]
    refine hexDigitsVal_isSome cs (by intro hc; rw [hc] at hlen; simp at hlen) ?_
    intro c hc
    have : c ∈ stripHex d := hsub c hc
    exact List.all_eq_true.mp hd c this
  · rw [List.getD_eq_default (splitWords d) "0x0" (by omega)]
    rfl

/-- C2. On well-formed raw log records (the data model guarantees hex-encoded
block number, log index and data blob) the decoder is total — it never throws —
and it produces no event exactly when the first topic matches none of the four
known signature hashes or the entity-id topic differs from the target entity
id; an entity-id mismatch excludes the record even when its signature matches. -/
theorem decodeLog_none_iff (p : DecodeParams) (l : RpcLog)
    (hwf : WellFormedLog l) :
    decodeLog p l ≠ Except.error () ∧
    (decodeLog p l = Except.ok none ↔
      (¬ matchesKnownSig p l ∨
        toLowerStr (l.topics.getD 1 "") ≠ toLowerStr p.productId)) := by
  obtain ⟨hbn', hli', hdata⟩ := hwf
  obtain ⟨bn, hbn⟩ := Option.isSome_iff_exists.mp hbn'
  obtain ⟨li, hli⟩ := Option.isSome_iff_exists.mp hli'
  obtain ⟨w0, hw0⟩ := Option.isSome_iff_exists.mp (splitWords_getD_decodeUint hdata 0)
  obtain ⟨w1, hw1⟩ := Option.isSome_iff_exists.mp (splitWords_getD_decodeUint hdata 1)
  by_cases hpid : toLowerStr (l.topics.getD 1 "") = toLowerStr p.productId
  case neg =>
    have hval : decodeLog p l = Except.ok none := by
      simp only [decodeLog]
      rw [if_pos hpid]
    rw [hval]
    exact ⟨by simp, iff_of_true rfl (Or.inr hpid)⟩
  case pos =>
    have hnn : ¬(toLowerStr (l.topics.getD 1 "") ≠ toLowerStr p.productId) :=
      not_not_intro hpid
    by_cases h1 : toLowerStr (l.topics.getD 0 "") = toLowerStr p.tCidAnchored
    · have hok : decodeLog p l ≠ Except.error () ∧ decodeLog p l ≠ Except.ok none := by
        simp only [decodeLog]
        rw [if_neg hnn, if_pos h1, hw1, hbn, hli]
        exact ⟨by simp [liftO, Bind.bind, Except.bind],
          by simp [liftO, Bind.bind, Except.bind]⟩
      refine ⟨hok.1, iff_of_false hok.2 ?_⟩
      rintro (hm | hne)
      · exact hm (show matchesKnownSig p l from Or.inl h1)
      · exact hne hpid
    · by_cases h2 : toLowerStr (l.topics.getD 0 "") = toLowerStr p.tDocAnchored
      · have hok : decodeLog p l ≠ Except.error () ∧ decodeLog p l ≠ Except.ok none := by
          simp only [decodeLog]
          rw [if_neg hnn, if_neg h1, if_pos h2, hw1, hbn, hli]
          exact ⟨by simp [liftO, Bind.bind, Except.bind],
            by simp [liftO, Bind.bind, Except.bind]⟩
        refine ⟨hok.1, iff_of_false hok.2 ?_⟩
        rintro (hm | hne)
        · exact hm (show matchesKnownSig p l from Or.inr (Or.inl h2))
        · exact hne hpid
      · by_cases h3 : toLowerStr (l.topics.getD 0 "") = toLowerStr p.tProcessCreated
        · have hok : decodeLog p l ≠ Except.error () ∧ decodeLog p l ≠ Except.ok none := by
            simp only [decodeLog]
            rw [if_neg hnn, if_neg h1, if_neg h2, if_pos h3, hbn, hli]
            exact ⟨by simp [liftO, Bind.bind, Except.bind],
              by simp [liftO, Bind.bind, Except.bind]⟩
          refine ⟨hok.1, iff_of_false hok.2 ?_⟩
          rintro (hm | hne)
          · exact hm (show matchesKnownSig p l from Or.inr (Or.inr (Or.inl h3)))
          · exact hne hpid
        · by_cases h4 : toLowerStr (l.topics.getD 0 "") =
              toLowerStr p.tProcessStatusChanged
          · have hok : decodeLog p l ≠ Except.error () ∧
                decodeLog p l ≠ Except.ok none := by
              simp only [decodeLog]
              rw [if_neg hnn, if_neg h1, if_neg h2, if_neg h3, if_pos h4,
                hw0, hw1, hbn, hli]
              exact ⟨by simp [liftO, Bind.bind, Except.bind],
                by simp [liftO, Bind.bind, Except.bind]⟩
            refine ⟨hok.1, iff_of_false hok.2 ?_⟩
            rintro (hm | hne)
            · exact hm
                (show matchesKnownSig p l from Or.inr (Or.inr (Or.inr h4)))
            · exact hne hpid
          · have hval : decodeLog p l = Except.ok none := by
              simp only [decodeLog]
              rw [if_neg hnn, if_neg h1, if_neg h2, if_neg h3, if_neg h4]
            rw [hval]
            refine ⟨by simp, iff_of_true rfl (Or.inl ?_)⟩
            intro hm
            rcases show (toLowerStr (l.topics.getD 0 "") = toLowerStr p.tCidAnchored ∨
                toLowerStr (l.topics.getD 0 "") = toLowerStr p.tDocAnchored ∨
                toLowerStr (l.topics.getD 0 "") = toLowerStr p.tProcessCreated ∨
                toLowerStr (l.topics.getD 0 "") = toLowerStr p.tProcessStatusChanged)
              from hm with h | h | h | h
            exacts [h1 h, h2 h, h3 h, h4 h]

/-- Concrete decode parameters shared by the decoder witnesses. -/
def cParams : DecodeParams :=
  { productId := "0x11", tCidAnchored := "0xaa", tDocAnchored := "0xbb",
    tProcessCreated := "0xcc", tProcessStatusChanged := "0xdd" }

/-- Concrete record whose first topic matches no known signature. -/
def c2Log : RpcLog :=
  { address := "0xad", topics := ["0xee", "0x11"], data := "0x",
    blockNumber := "0x1", transactionHash := "0xt2", logIndex := "0x0" }

/-- C2 witness: the theorem applied to a concrete unknown-signature record. -/
theorem decodeLog_none_iff_witness :
    decodeLog cParams c2Log ≠ Except.error () ∧
    (decodeLog cParams c2Log = Except.ok none ↔
      (¬ matchesKnownSig cParams c2Log ∨
        toLowerStr (c2Log.topics.getD 1 "") ≠ toLowerStr cParams.productId)) :=
  decodeLog_none_iff cParams c2Log (by decide)

/-- Concrete matching `CidAnchored` record with an empty data blob, for C6. -/
def c6Log : RpcLog :=
  { address := "0xad", topics := ["0xaa", "0x11", "0x22", "0x33"], data := "0x",
    blockNumber := "0x1", transactionHash := "0xt6", logIndex := "0x0" }

/-- C6 counterexample: on a matching `CidAnchored` record whose data blob is
empty, the decoder still produces an event with `stepType = 0` and the
all-zero actor address, but the content hash becomes the literal `"0x"` — the
missing content-hash word is NOT decoded to the 32-byte zero word. -/
theorem decode_missing_cidHash_not_zero_word :
    decodeLog cParams c6Log = Except.ok (some
      { blockNumber := 1, logIndex := 0, txHash := "0xt6", productId := "0x11",
        timestamp := none,
        details := EventDetails.cidAnchored "0x22" "0x33" "0x" 0 zeroAddress40 })
    ∧ ("0x" : String) ≠ zeroWord64 := by
  constructor
  · rfl
  · decide

/-- C6 (amended). A matching `CidAnchored` record whose data blob splits into
no complete 32-byte words still decodes to an event: the missing `stepType`
word is read as 0 and the missing actor word as the all-zero address, but the
missing content-hash word yields the empty hex string `"0x"`, not the zero
word. -/
theorem decode_short_data_zero_fill (p : DecodeParams) (l : RpcLog) (bn li : ℕ)
    (hsig : toLowerStr (l.topics.getD 0 "") = toLowerStr p.tCidAnchored)
    (hpid : toLowerStr (l.topics.getD 1 "") = toLowerStr p.productId)
    (hwords : splitWords l.data = [])
    (hbn : hexToBigInt? l.blockNumber = some bn)
    (hli : hexToBigInt? l.logIndex = some li) :
    decodeLog p l = Except.ok (some
      { blockNumber := bn, logIndex := li, txHash := l.transactionHash,
        productId := p.productId, timestamp := none,
        details := EventDetails.cidAnchored (decodeBytes32 (l.topics.getD 2 ""))
          (decodeBytes32 (l.topics.getD 3 "")) "0x" 0 zeroAddress40 }) := by
  have hnn : ¬(toLowerStr (l.topics.getD 1 "") ≠ toLowerStr p.productId) :=
    not_not_intro hpid
  simp only [decodeLog]
  rw [if_neg hnn, if_pos hsig, hwords, hbn, hli]
  rfl

/-- C6 witness: the amended theorem applied to the concrete empty-data record. -/
theorem decode_short_data_zero_fill_witness :
    decodeLog cParams c6Log = Except.ok (some
      { blockNumber := 1, logIndex := 0, txHash := c6Log.transactionHash,
        productId := cParams.productId, timestamp := none,
        details := EventDetails.cidAnchored (decodeBytes32 (c6Log.topics.getD 2 ""))
          (decodeBytes32 (c6Log.topics.getD 3 "")) "0x" 0 zeroAddress40 }) :=
  decode_short_data_zero_fill cParams c6Log 1 0 (by decide) (by decide)
    (by decide) (by decide) (by decide)

/-- C7. The scanner terminates (the supplied fuel never runs out once it
exceeds the loop measure `toBlock + 1 - start + chunkSize`), and once the
request counter has reached `maxRequests` it issues no further query and
returns the accumulated logs as a normal partial result, not an error. -/
theorem scan_terminates_and_caps_requests (cfg : ScanConfig) :
    (∀ fuel start chunkSize reqCount acc, 1 ≤ chunkSize →
        cfg.toBlock + 1 - start + chunkSize < fuel →
        (scanLoopF cfg fuel start chunkSize reqCount acc).isSome = true)
    ∧ (∀ fuel start chunkSize reqCount acc, cfg.maxRequests ≤ reqCount →
        scanLoopF cfg (fuel + 1) start chunkSize reqCount acc
          = some (Except.ok acc, [])) := by
  constructor
  · intro fuel
    induction fuel with
    | zero => intro start chunkSize reqCount acc hcs hlt; omega
    | succ fuel ih =>
      intro start chunkSize reqCount acc hcs hlt
      simp only [scanLoopF]
      split_ifs with h1 h2
      · simp
      · simp
      · rcases htc : tryCandidates cfg.rpcResponse start
            (min cfg.toBlock (start + chunkSize - 1)) reqCount cfg.rpcCandidates
          with ⟨rc', tr, res⟩
        cases res with
        | ok logs =>
          dsimp only
          by_cases hstop : earlyStopHit cfg (acc ++ logs) = true
          · simp [hstop]
          · rw [if_neg hstop, Option.isSome_map']
            exact ih _ _ _ _ hcs (by omega)
        | error msg =>
          dsimp only
          by_cases hcl : 1 < chunkSize ∧ looksLikeRangeLimitError msg = true
          · rw [if_pos hcl, Option.isSome_map']
            exact ih _ _ _ _ (le_max_left 1 _) (by omega)
          · simp [hcl]
  · intro fuel start chunkSize reqCount acc h
    simp only [scanLoopF]
    by_cases h1 : cfg.toBlock < start
    · rw [if_pos h1]
    · rw [if_neg h1, if_pos h]

/-- Concrete scan configuration for the C7 witness: every request succeeds
with no logs, `maxRequests = 2`. -/
def c7Cfg : ScanConfig :=
  { rpcCandidates := ["u"], fromBlock := 0, toBlock := 3, maxRequests := 2,
    earlyStopCheck := none, rpcResponse := fun _ _ _ _ => Except.ok [] }

/-- C7 witness: the theorem applied to the concrete configuration, both for
termination (enough fuel yields a result) and for the request ceiling
(counter already at the ceiling returns the partial accumulator). -/
theorem scan_terminates_and_caps_requests_witness :
    (scanLoopF c7Cfg 10 0 1 0 []).isSome = true ∧
      scanLoopF c7Cfg (5 + 1) 0 1 5 [] = some (Except.ok [], []) :=
  ⟨(scan_terminates_and_caps_requests c7Cfg).1 10 0 1 0 [] (by decide) (by decide),
   (scan_terminates_and_caps_requests c7Cfg).2 5 0 1 5 [] (by decide)⟩

theorem tryCandidates_cons (oracle : ℕ → String → ℕ → ℕ → Except String (List RpcLog))
    (s e rc : ℕ) (u : String) (us : List String) :
    ∃ rc2 tr2 r, tryCandidates oracle s e rc (u :: us) = (rc2, (s, e) :: tr2, r) := by
  cases h : oracle rc u s e with
  | ok logs => exact ⟨rc + 1, [], Except.ok logs, by simp [tryCandidates, h]⟩
  | error msg =>
    cases us with
    | nil => exact ⟨rc + 1, [], Except.error msg, by simp [tryCandidates, h]⟩
    | cons v vs =>
      refine ⟨(tryCandidates oracle s e (rc + 1) (v :: vs)).1,
        (tryCandidates oracle s e (rc + 1) (v :: vs)).2.1,
        (tryCandidates oracle s e (rc + 1) (v :: vs)).2.2, ?_⟩
      simp [tryCandidates, h]

/-- Concrete scan configuration for C3: a single endpoint whose first request
fails with a range-limit message and which succeeds afterwards, scanning
blocks 100 to 199 with initial chunk size 100. -/
def c3Cfg : ScanConfig :=
  { rpcCandidates := ["u"], fromBlock := 100, toBlock := 199, maxRequests := 1000,
    earlyStopCheck := none,
    rpcResponse := fun i _ _ _ =>
      if i = 0 then Except.error "block range exceeded" else Except.ok [] }

/-- C3 counterexample: after the range-limited failure of the request for
`[100, 199]` at chunk size 100, the next issued request targets `[100, 149]`
(same cursor, halved chunk), which is NOT the identical range `[100, 199]`
the claim demands. -/
theorem scan_halving_range_cex :
    (ethGetLogsChunkedWithProgress c3Cfg 100).2
        = [(100, 199), (100, 149), (150, 199)]
    ∧ ((100, 149) : ℕ × ℕ) ≠ (100, 199) := by
  constructor
  · rfl
  · decide

/-- C3 (amended). When a range query for `[100, 199]` at chunk size 100 fails
on all candidate endpoints with a range-limit classified error, the scanner
halves the chunk size to 50 and retries from the same cursor (`start = 100`
unchanged); the next attempt therefore targets `[100, 149]` — the same start
with the halved window — rather than the identical range `[100, 199]`. -/
theorem scan_halving_keeps_cursor (cfg : ScanConfig) (fuel rc rc' : ℕ)
    (acc : List RpcLog) (tr : List (ℕ × ℕ)) (msg : String)
    (htb : 199 ≤ cfg.toBlock) (hrc : rc < cfg.maxRequests)
    (htry : tryCandidates cfg.rpcResponse 100 199 rc cfg.rpcCandidates
      = (rc', tr, Except.error msg))
    (hmsg : looksLikeRangeLimitError msg = true) :
    scanLoopF cfg (fuel + 1) 100 100 rc acc
      = (scanLoopF cfg fuel 100 50 rc' acc).map (fun q => (q.1, tr ++ q.2))
    ∧ (∀ u us res, cfg.rpcCandidates = u :: us → rc' < cfg.maxRequests →
        scanLoopF cfg fuel 100 50 rc' acc = some res →
        ∃ rest, res.2 = (100, 149) :: rest) := by
  have hend : min cfg.toBlock (100 + 100 - 1) = 199 := by omega
  constructor
  · simp only [scanLoopF]
    rw [if_neg (by omega : ¬cfg.toBlock < 100), if_neg (by omega : ¬cfg.maxRequests ≤ rc),
      hend, htry]
    dsimp only
    rw [if_pos ⟨by omega, hmsg⟩]
    norm_num
  · intro u us res hcand hrc' hres
    cases fuel with
    | zero => simp [scanLoopF] at hres
    | succ g =>
      simp only [scanLoopF] at hres
      rw [if_neg (by omega : ¬cfg.toBlock < 100),
        if_neg (by omega : ¬cfg.maxRequests ≤ rc'),
        (by omega : min cfg.toBlock (100 + 50 - 1) = 149), hcand] at hres
      obtain ⟨rc2, tr2, r, htc⟩ := tryCandidates_cons cfg.rpcResponse 100 149 rc' u us
      rw [htc] at hres
      cases r with
      | ok logs =>
        dsimp only at hres
        by_cases hstop : earlyStopHit cfg (acc ++ logs) = true
        · rw [if_pos hstop] at hres
          cases hres
          exact ⟨tr2, rfl⟩
        · rw [if_neg hstop] at hres
          obtain ⟨q, _, hqe⟩ := Option.map_eq_some'.mp hres
          exact ⟨tr2 ++ q.2, by rw [← hqe]; simp⟩
      | error m2 =>
        dsimp only at hres
        by_cases hcl : 1 < 50 ∧ looksLikeRangeLimitError m2 = true
        · rw [if_pos hcl] at hres
          obtain ⟨q, _, hqe⟩ := Option.map_eq_some'.mp hres
          exact ⟨tr2 ++ q.2, by rw [← hqe]; simp⟩
        · rw [if_neg hcl] at hres
          cases hres
          exact ⟨tr2, rfl⟩

/-- C3 witness: the amended theorem applied to the concrete configuration. -/
theorem scan_halving_keeps_cursor_witness :
    scanLoopF c3Cfg (150 + 1) 100 100 0 []
      = (scanLoopF c3Cfg 150 100 50 1 []).map
          (fun q => (q.1, [((100 : ℕ), (199 : ℕ))] ++ q.2)) :=
  (scan_halving_keeps_cursor c3Cfg 150 0 1 [] [(100, 199)] "block range exceeded"
    (by decide) (by decide) (by rfl) (by rfl)).1

theorem retryGo_allFail {T : Type} (e : JsError) (calls : ℕ → Except JsError T)
    (hre : (isRateLimitError e || isBackendDownError e) = true)
    (hc : ∀ k, calls k = Except.error e) :
    ∀ remaining attempt, retryGo calls attempt remaining
      = (Except.error e, (List.range remaining).map
          (fun j => min 15000 (1000 * 2 ^ (attempt + j)))) := by
  intro remaining
  induction remaining with
  | zero =>
    intro attempt
    rw [retryGo, hc attempt]
    try dsimp only
    rw [if_pos hre]
    simp
  | succ r ih =>
    intro attempt
    rw [retryGo, hc attempt]
    try dsimp only
    rw [if_pos hre]
    try dsimp only
    rw [ih (attempt + 1)]
    rw [List.range_succ_eq_map, List.map_cons, List.map_map]
    refine congrArg (Prod.mk _) (congrArg₂ List.cons (by norm_num) ?_)
    apply List.map_congr_left
    intro j _
    have hx : attempt + 1 + j = attempt + (j + 1) := by omega
    simp only [Function.comp_apply]
    rw [hx]

/-- C8 (amended). Exponential-backoff retry of rate-limit failures lives in
the tx-sending RPS benchmark's `withRpcRetry` — bounded at `MAX_RETRIES`
attempts with delays `min(15000, 1000·2^attempt)` and a final rethrow — while
the reconstruction pipeline's retrieval layer has no such loop: once the
scanner's chunk size is 1, a failure classified as rate-limited/range-limited
on all endpoints immediately escalates to a fatal scan error with no further
request. -/
theorem backoff_in_benchmark_not_scanner :
    (∀ (T : Type) (e : JsError) (calls : ℕ → Except JsError T),
        (isRateLimitError e || isBackendDownError e) = true →
        (∀ k, calls k = Except.error e) →
        withRpcRetry calls
          = (Except.error e, (List.range MAX_RETRIES).map
              (fun a => min 15000 (1000 * 2 ^ a))))
    ∧ (∀ (cfg : ScanConfig) (fuel start reqCount rc' : ℕ) (acc : List RpcLog)
        (tr : List (ℕ × ℕ)) (msg : String),
        start ≤ cfg.toBlock → reqCount < cfg.maxRequests →
        tryCandidates cfg.rpcResponse start (min cfg.toBlock start) reqCount
            cfg.rpcCandidates = (rc', tr, Except.error msg) →
        scanLoopF cfg (fuel + 1) start 1 reqCount acc
          = some (Except.error ("scan-fatal: " ++ msg), tr)) := by
  constructor
  · intro T e calls hre hc
    have h := retryGo_allFail e calls hre hc MAX_RETRIES 0
    rw [withRpcRetry, h]
    simp
  · intro cfg fuel start reqCount rc' acc tr msg hstart hrc htry
    simp only [scanLoopF]
    rw [if_neg (by omega : ¬cfg.toBlock < start),
      if_neg (by omega : ¬cfg.maxRequests ≤ reqCount),
      (by omega : min cfg.toBlock (start + 1 - 1) = min cfg.toBlock start), htry]
    dsimp only
    rw [if_neg (by simp)]

/-- Error value for the C8 witness, classified as a rate limit by message. -/
def c8Err : JsError := ⟨none, some "Too Many Requests"⟩

/-- Scan configuration for the C8 witness: every request fails with a
rate-limit message. -/
def c8Cfg : ScanConfig :=
  { rpcCandidates := ["u"], fromBlock := 0, toBlock := 10, maxRequests := 100,
    earlyStopCheck := none,
    rpcResponse := fun _ _ _ _ => Except.error "429 too many requests" }

/-- C8 counterexample: in the reconstruction retrieval layer, a failure whose
message IS classified as rate-limited (`429 too many requests`) at chunk size
1 makes the whole scan fatal after a single request — it is not retried with
backoff until attempts are exhausted. -/
theorem scanner_rate_limit_no_backoff_cex :
    looksLikeRangeLimitError "429 too many requests" = true ∧
    ethGetLogsChunkedWithProgress c8Cfg 1
      = (Except.error "scan-fatal: 429 too many requests", [(0, 0)]) :=
  ⟨rfl, rfl⟩

/-- C8 witness: the amended theorem applied to a concrete always-failing call
oracle (benchmark side) and to the concrete scanner configuration. -/
theorem backoff_in_benchmark_not_scanner_witness :
    withRpcRetry (fun _ => (Except.error c8Err : Except JsError Unit))
      = (Except.error c8Err, (List.range MAX_RETRIES).map
          (fun a => min 15000 (1000 * 2 ^ a))) ∧
    scanLoopF c8Cfg (5 + 1) 0 1 0 []
      = some (Except.error "scan-fatal: 429 too many requests", [(0, 0)]) :=
  ⟨backoff_in_benchmark_not_scanner.1 Unit c8Err _ (by rfl) (fun _ => rfl),
   backoff_in_benchmark_not_scanner.2 c8Cfg 5 0 0 1 [] [(0, 0)]
     "429 too many requests" (by decide) (by decide) (by rfl)⟩

/-- C9 (amended). In `main`'s direct reconstruction loop, transaction-level
de-duplication keyed by the lowercased transaction hash happens before any
receipt fetch or decode: the produced timeline equals the one obtained from
the case-insensitively de-duplicated transaction list, so duplicate entries
(even ones differing only in letter case) contribute no additional events.
The latency-harness path `runAuditQueryOnce` performs no such de-duplication
(see the counterexample). -/
theorem mainReceiptLoop_dedup (fetch : String → Option TxReceiptM)
    (p : DecodeParams) :
    ∀ (txs : List String) (seen : List String),
      mainReceiptLoop fetch p seen txs
        = mainReceiptLoop fetch p seen (dedupCaseInsensitive seen txs) := by
  intro txs
  induction txs with
  | nil => intro seen; rfl
  | cons t ts ih =>
    intro seen
    by_cases hs : toLowerStr t ∈ seen
    · simp only [mainReceiptLoop, dedupCaseInsensitive, if_pos hs]
      exact ih seen
    · simp only [mainReceiptLoop, dedupCaseInsensitive, if_neg hs]
      cases hf : fetch t with
      | none =>
        dsimp only
        exact ih _
      | some rc =>
        dsimp only
        rw [ih (toLowerStr t :: seen)]

/-- Receipt returned for both spellings of the duplicated transaction hash. -/
def c9Receipt : TxReceiptM :=
  { transactionHash := "0xAB", blockNumber := "0x5",
    logs := [{ address := "0xad", topics := ["0xcc", "0x11", "0x77"],
               data := "0x", blockNumber := "0x5", transactionHash := "0xAB",
               logIndex := "0x0" }] }

/-- Receipt oracle for C9: both case variants of the hash have the receipt. -/
def c9Fetch : String → Option TxReceiptM := fun t =>
  if t = "0xAB" ∨ t = "0xab" then some c9Receipt else none

/-- C9 counterexample: the latency-harness pipeline (`runAuditQueryOnce`,
cold mode) does NOT de-duplicate the transaction list: a list containing the
same transaction hash twice (differing only in case) decodes the receipt
twice and contributes the event twice, unlike the singleton list. -/
theorem simCold_duplicates_not_deduped_cex :
    toLowerStr "0xAB" = toLowerStr "0xab" ∧
    simColdEvents c9Fetch cParams ["0xAB", "0xab"]
      = Except.ok [⟨5, 0, "0xAB", "0x11", none, .processCreated "0x77"⟩,
                   ⟨5, 0, "0xAB", "0x11", none, .processCreated "0x77"⟩] ∧
    simColdEvents c9Fetch cParams ["0xAB"]
      = Except.ok [⟨5, 0, "0xAB", "0x11", none, .processCreated "0x77"⟩] :=
  ⟨rfl, rfl, rfl⟩

/-- C9 witness: the amended theorem applied to the concrete duplicated list. -/
theorem mainReceiptLoop_dedup_witness :
    mainReceiptLoop c9Fetch cParams [] ["0xAB", "0xab"]
      = mainReceiptLoop c9Fetch cParams []
          (dedupCaseInsensitive [] ["0xAB", "0xab"]) :=
  mainReceiptLoop_dedup c9Fetch cParams ["0xAB", "0xab"] []

/-- Interleaving invariant of the `mapLimit` state machine: written cells hold
the right value, held indices are in range, unwritten and uniquely held,
claimed in-range indices are written or held, a finished worker certifies that
the counter has passed the end, and unclaimed cells are unwritten. -/
def MLInv (f : ℕ → α → β) (items : List α) (s : MLState β) : Prop :=
  s.out.length = items.length ∧
  (∀ (i : ℕ) (b : β), s.out[i]? = some (some b) →
    ∃ a, items[i]? = some a ∧ b = f i a) ∧
  (∀ (w i : ℕ), s.workers[w]? = some (WPhase.holds i) →
    i < items.length ∧ i < s.next ∧ s.out[i]? = some none) ∧
  (∀ (w w' i : ℕ), s.workers[w]? = some (WPhase.holds i) →
    s.workers[w']? = some (WPhase.holds i) → w = w') ∧
  (∀ i : ℕ, i < items.length → i < s.next →
    (∃ b, s.out[i]? = some (some b)) ∨
      ∃ w : ℕ, s.workers[w]? = some (WPhase.holds i)) ∧
  (∀ w : ℕ, s.workers[w]? = some WPhase.done → items.length < s.next) ∧
  (∀ i : ℕ, i < items.length → s.next ≤ i → s.out[i]? = some none)

theorem MLInv_init (f : ℕ → α → β) (items : List α) (limit : ℕ) :
    MLInv f items (mlInit β items.length limit) := by
  refine ⟨by simp [mlInit], ?_, ?_, ?_, ?_, ?_, ?_⟩
  · intro i b hb
    simp only [mlInit, List.getElem?_replicate] at hb
    split at hb <;> simp_all
  · intro w i hw
    simp only [mlInit, List.getElem?_replicate] at hw
    split at hw <;> simp_all
  · intro w w' i hw hw'
    simp only [mlInit, List.getElem?_replicate] at hw
    split at hw <;> simp_all
  · intro i _ hlt
    simp [mlInit] at hlt
  · intro w hw
    simp only [mlInit, List.getElem?_replicate] at hw
    split at hw <;> simp_all
  · intro i hi _
    simp only [mlInit, List.getElem?_replicate]
    simp [hi]

theorem MLInv_step (f : ℕ → α → β) (items : List α) (s : MLState β) (w : ℕ)
    (h : MLInv f items s) : MLInv f items (mlStep f items s w) := by
  obtain ⟨hlen, hout, hholds, huniq, hcov, hdones, hunw⟩ := h
  unfold mlStep
  cases hw : s.workers[w]? with
  | none => exact ⟨hlen, hout, hholds, huniq, hcov, hdones, hunw⟩
  | some ph =>
    have hwlt : w < s.workers.length := by
      by_contra hcon
      push_neg at hcon
      rw [List.getElem?_eq_none hcon] at hw
      exact Option.noConfusion hw
    cases ph with
    | done => exact ⟨hlen, hout, hholds, huniq, hcov, hdones, hunw⟩
    | ready =>
      dsimp only
      by_cases hn : items.length ≤ s.next
      · rw [if_pos hn]
        unfold MLInv
        dsimp only
        refine ⟨hlen, hout, ?_, ?_, ?_, ?_, ?_⟩
        · intro w' i hw'
          by_cases hww : w = w'
          · subst hww
            rw [List.getElem?_set_self hwlt] at hw'
            simp at hw'
          · rw [List.getElem?_set_ne hww] at hw'
            obtain ⟨h1, h2, h3⟩ := hholds w' i hw'
            exact ⟨h1, by omega, h3⟩
        · intro w1 w2 i hw1 hw2
          by_cases h1 : w = w1
          · subst h1; rw [List.getElem?_set_self hwlt] at hw1; simp at hw1
          · by_cases h2 : w = w2
            · subst h2; rw [List.getElem?_set_self hwlt] at hw2; simp at hw2
            · rw [List.getElem?_set_ne h1] at hw1
              rw [List.getElem?_set_ne h2] at hw2
              exact huniq w1 w2 i hw1 hw2
        · intro i hi hlt
          rcases hcov i hi (by omega) with hb | ⟨w0, hw0⟩
          · exact Or.inl hb
          · have hww : w ≠ w0 := by
              intro hcon
              subst hcon
              rw [hw] at hw0
              simp at hw0
            exact Or.inr ⟨w0, by rw [List.getElem?_set_ne hww]; exact hw0⟩
        · intro w' _
          omega
        · intro i hi hge
          exact hunw i hi (by omega)
      · rw [if_neg hn]
        push_neg at hn
        unfold MLInv
        dsimp only
        refine ⟨hlen, hout, ?_, ?_, ?_, ?_, ?_⟩
        · intro w' i hw'
          by_cases hww : w = w'
          · subst hww
            rw [List.getElem?_set_self hwlt] at hw'
            have hieq : i = s.next := by simpa using hw'.symm
            subst hieq
            exact ⟨hn, by omega, hunw s.next hn (le_refl _)⟩
          · rw [List.getElem?_set_ne hww] at hw'
            obtain ⟨h1, h2, h3⟩ := hholds w' i hw'
            exact ⟨h1, by omega, h3⟩
        · intro w1 w2 i hw1 hw2
          by_cases h1 : w = w1
          · by_cases h2 : w = w2
            · omega
            · subst h1
              rw [List.getElem?_set_self hwlt] at hw1
              rw [List.getElem?_set_ne h2] at hw2
              have hieq : i = s.next := by simpa using hw1.symm
              subst hieq
              obtain ⟨_, h2', _⟩ := hholds w2 _ hw2
              omega
          · by_cases h2 : w = w2
            · subst h2
              rw [List.getElem?_set_self hwlt] at hw2
              rw [List.getElem?_set_ne h1] at hw1
              have hieq : i = s.next := by simpa using hw2.symm
              subst hieq
              obtain ⟨_, h1', _⟩ := hholds w1 _ hw1
              omega
            · rw [List.getElem?_set_ne h1] at hw1
              rw [List.getElem?_set_ne h2] at hw2
              exact huniq w1 w2 i hw1 hw2
        · intro i hi hlt
          by_cases hieq : i = s.next
          · subst hieq
            exact Or.inr ⟨w, by rw [List.getElem?_set_self hwlt]⟩
          · rcases hcov i hi (by omega) with hb | ⟨w0, hw0⟩
            · exact Or.inl hb
            · have hww : w ≠ w0 := by
                intro hcon
                subst hcon
                rw [hw] at hw0
                simp at hw0
              exact Or.inr ⟨w0, by rw [List.getElem?_set_ne hww]; exact hw0⟩
        · intro w' hw'
          by_cases hww : w = w'
          · subst hww; rw [List.getElem?_set_self hwlt] at hw'; simp at hw'
          · rw [List.getElem?_set_ne hww] at hw'
            have := hdones w' hw'
            omega
        · intro i hi hge
          exact hunw i hi (by omega)
    | holds i =>
      dsimp only
      cases hia : items[i]? with
      | none => exact ⟨hlen, hout, hholds, huniq, hcov, hdones, hunw⟩
      | some a =>
        obtain ⟨hin, hinext, hiout⟩ := hholds w i hw
        have hilen : i < s.out.length := by omega
        unfold MLInv
        dsimp only
        refine ⟨by simp [hlen], ?_, ?_, ?_, ?_, ?_, ?_⟩
        · intro j b hj
          by_cases hij : i = j
          · subst hij
            rw [List.getElem?_set_self hilen] at hj
            have hb : b = f i a := by simpa using hj.symm
            exact ⟨a, hia, hb⟩
          · rw [List.getElem?_set_ne hij] at hj
            exact hout j b hj
        · intro w' j hw'
          by_cases hww : w = w'
          · subst hww; rw [List.getElem?_set_self hwlt] at hw'; simp at hw'
          · rw [List.getElem?_set_ne hww] at hw'
            obtain ⟨h1, h2, h3⟩ := hholds w' j hw'
            have hij : i ≠ j := by
              intro hcon
              subst hcon
              exact hww (huniq w w' i hw hw')
            refine ⟨h1, h2, ?_⟩
            rw [List.getElem?_set_ne hij]
            exact h3
        · intro w1 w2 j hw1 hw2
          by_cases h1 : w = w1
          · subst h1; rw [List.getElem?_set_self hwlt] at hw1; simp at hw1
          · by_cases h2 : w = w2
            · subst h2; rw [List.getElem?_set_self hwlt] at hw2; simp at hw2
            · rw [List.getElem?_set_ne h1] at hw1
              rw [List.getElem?_set_ne h2] at hw2
              exact huniq w1 w2 j hw1 hw2
        · intro j hj hlt
          by_cases hij : i = j
          · subst hij
            exact Or.inl ⟨f i a, by rw [List.getElem?_set_self hilen]⟩
          · rcases hcov j hj hlt with ⟨b, hb⟩ | ⟨w0, hw0⟩
            · exact Or.inl ⟨b, by rw [List.getElem?_set_ne hij]; exact hb⟩
            · have hww : w ≠ w0 := by
                intro hcon
                subst hcon
                rw [hw] at hw0
                have : i = j := by simpa using hw0
                exact hij this
              exact Or.inr ⟨w0, by rw [List.getElem?_set_ne hww]; exact hw0⟩
        · intro w' hw'
          by_cases hww : w = w'
          · subst hww; rw [List.getElem?_set_self hwlt] at hw'; simp at hw'
          · rw [List.getElem?_set_ne hww] at hw'
            exact hdones w' hw'
        · intro j hj hge
          have hij : i ≠ j := by omega
          rw [List.getElem?_set_ne hij]
          exact hunw j hj hge

theorem MLInv_run (f : ℕ → α → β) (items : List α) :
    ∀ (trace : List ℕ) (s : MLState β), MLInv f items s →
      MLInv f items (mlRun f items s trace) := by
  intro trace
  induction trace with
  | nil => intro s h; exact h
  | cons w tr ih =>
    intro s h
    exact ih (mlStep f items s w) (MLInv_step f items s w h)

theorem mlStep_workers_length (f : ℕ → α → β) (items : List α) (s : MLState β)
    (w : ℕ) : (mlStep f items s w).workers.length = s.workers.length := by
  unfold mlStep
  cases hw : s.workers[w]? with
  | none => rfl
  | some ph =>
    cases ph with
    | ready =>
      dsimp only
      split_ifs <;> simp
    | holds i =>
      dsimp only
      cases items[i]? <;> simp
    | done => rfl

theorem mlRun_workers_length (f : ℕ → α → β) (items : List α) :
    ∀ (trace : List ℕ) (s : MLState β),
      (mlRun f items s trace).workers.length = s.workers.length := by
  intro trace
  induction trace with
  | nil => intro s; rfl
  | cons w tr ih =>
    intro s
    exact (ih (mlStep f items s w)).trans (mlStep_workers_length f items s w)

/-- C10. `mapLimit` preserves input order: under every interleaving of the
workers' atomic actions that lets all workers finish, the output array has one
cell per input item and its `i`-th cell holds exactly `fn(items[i], i)`,
regardless of the order in which the individual operations completed. -/
theorem mapLimit_preserves_order (f : ℕ → α → β) (items : List α)
    (limit : ℕ) (trace : List ℕ)
    (hdone : allDone (mlRun f items (mlInit β items.length limit) trace) = true) :
    (mlRun f items (mlInit β items.length limit) trace).out
      = (List.range items.length).map (fun i => (items[i]?).map (f i)) := by
  obtain ⟨hlen, hout, hholds, huniq, hcov, hdones, hunw⟩ :=
    MLInv_run f items trace _ (MLInv_init f items limit)
  set s := mlRun f items (mlInit β items.length limit) trace with hs
  have hwl : s.workers.length = max 1 limit := by
    rw [hs, mlRun_workers_length]
    simp [mlInit]
  have halld : ∀ ph ∈ s.workers, ph = WPhase.done := by
    intro ph hph
    exact of_decide_eq_true (List.all_eq_true.mp hdone ph hph)
  have hw0 : s.workers[0]? = some WPhase.done := by
    have h0 : 0 < s.workers.length := by omega
    rw [List.getElem?_eq_getElem h0]
    exact congrArg some (halld _ (List.getElem_mem h0))
  have hnext : items.length < s.next := hdones 0 hw0
  have hnoholds : ∀ (w0 i : ℕ), s.workers[w0]? ≠ some (WPhase.holds i) := by
    intro w0 i hcon
    have hlt : w0 < s.workers.length := by
      by_contra hc
      push_neg at hc
      rw [List.getElem?_eq_none hc] at hcon
      exact Option.noConfusion hcon
    rw [List.getElem?_eq_getElem hlt] at hcon
    rw [halld _ (List.getElem_mem hlt)] at hcon
    exact WPhase.noConfusion (Option.some.inj hcon)
  apply List.ext_getElem?
  intro i
  rw [List.getElem?_map]
  by_cases hi : i < items.length
  · rcases hcov i hi (by omega) with ⟨b, hb⟩ | ⟨w0, hw0'⟩
    · obtain ⟨a, ha, rfl⟩ := hout i b hb
      rw [hb, List.getElem?_range hi]
      simp [ha]
    · exact absurd hw0' (hnoholds w0 i)
  · rw [List.getElem?_eq_none (by omega : s.out.length ≤ i),
      List.getElem?_eq_none (by simpa using (by omega : items.length ≤ i))]
    rfl

/-- C10 witness: the theorem applied to a concrete two-item input with two
workers and an interleaved schedule in which worker 1's operation completes
before worker 0's. -/
theorem mapLimit_preserves_order_witness :
    (mlRun (fun i a => a + i) ([10, 20] : List ℕ)
        (mlInit ℕ ([10, 20] : List ℕ).length 2) [0, 1, 1, 0, 0, 1]).out
      = (List.range ([10, 20] : List ℕ).length).map
          (fun i => (([10, 20] : List ℕ)[i]?).map (fun a => a + i)) :=
  mapLimit_preserves_order (fun i a => a + i) [10, 20] 2 [0, 1, 1, 0, 0, 1]
    (by decide)

/-- C5 witness: the characterization instantiated at the concrete timeline. -/
theorem completeness_superset_iff_witness :
    completeness01 cidEventsSteps15 = 1 ↔
      ∀ s ∈ requiredStepsArr, s ∈ seenSteps cidEventsSteps15 :=
  completeness_superset_iff.1 cidEventsSteps15
